import Mathlib

/-
Verification development for the SlicerPySERA repository.

The non-UI logic of the repository (PySERA/PySera.py, with the close variant
PySera_Ext/PySera.py) is shallowly embedded below:

  * `PyVal`            — the Python values flowing through the config/result code
                         (None, bool, int, float, str, list, dict).  Table-like
                         payloads (duck-typed pandas DataFrames) are opaque host
                         objects and lie outside this value domain; for every
                         embedded value the `hasattr(fx, "columns")` test of the
                         DataFrame branch is false, so that branch is skipped.
  * `normalize`        — PySERALogic._normalize
  * `compose_cfg`      — PySERALogic._compose_cfg
  * `build_cli_kwargs` — PySERALogic._build_cli_kwargs
  * `feature_rows_from_result` — PySERALogic.feature_rows_from_result
  * `waitForReadableFile`      — PySERALogic._wait_for_readable_file, with the
                         file system abstracted as a sequence of attempt outcomes
  * `loadFeaturesRows` — the CSV-parsing part of
                         PySERALogic.load_features_as_feature_value_rows, applied
                         to the already-read list of CSV records

Python floats are modelled as exact rationals: the embedded code never computes
with floats, it only parses them from strings and passes them through, so only
parse success/failure is relevant.  String primitives (strip/lower/isdigit,
int()/float() parsing, json.loads) are modelled over ASCII; the divergences from
full Python semantics (unicode whitespace and digits, underscores in numeric
literals, "inf"/"nan" literals, float repr) are noted at each definition and are
not exercised by any theorem below.
-/

namespace PySera

/-- Embedded Python value. -/
inductive PyVal where
  | none : PyVal
  | bool (b : Bool) : PyVal
  | int (n : Int) : PyVal
  | float (q : Rat) : PyVal
  | str (s : String) : PyVal
  | list (xs : List PyVal) : PyVal
  | dict (kvs : List (String × PyVal)) : PyVal
deriving Repr

/-- Python `str.strip()` (ASCII whitespace model): drop leading and trailing
whitespace characters. -/
def pyStrip (s : String) : String :=
  ⟨(((s.data.dropWhile Char.isWhitespace).reverse.dropWhile Char.isWhitespace).reverse)⟩

/-- ASCII lower-casing of one character, as done by Python `str.lower()` on
ASCII input. -/
def charLower (c : Char) : Char :=
  if 65 ≤ c.toNat ∧ c.toNat ≤ 90 then Char.ofNat (c.toNat + 32) else c

/-- Python `str.lower()` (ASCII model). -/
def pyLower (s : String) : String := ⟨s.data.map charLower⟩

/-- Python `c in s` membership test for a single character. -/
def pyContains (s : String) (c : Char) : Bool := s.data.contains c

/-- Python `str.isdigit()` (ASCII model): nonempty and all characters are
decimal digits. -/
def pyIsDigit (s : String) : Bool := !s.data.isEmpty && s.data.all Char.isDigit

/-- Python `s.split(",")`: split on every comma, keeping empty chunks. -/
def splitCommaAux (acc : List Char) : List Char → List String
  | [] => [⟨acc.reverse⟩]
  | c :: cs => if c = ',' then ⟨acc.reverse⟩ :: splitCommaAux [] cs
               else splitCommaAux (c :: acc) cs

/-- Python `s.split(",")`. -/
def pySplitComma (s : String) : List String := splitCommaAux [] s.data

/-- Python `s.startswith(pre)`. -/
def pyStartsWith (s pre : String) : Bool := pre.data.isPrefixOf s.data

/-- Numeric value of a list of decimal digit characters. -/
def digitsVal (cs : List Char) : Nat := cs.foldl (fun a c => a * 10 + (c.toNat - 48)) 0

/-- Python `int(s)` on an already-stripped string (ASCII model; underscores in
literals are not modelled): optional sign followed by one or more digits. -/
def pyInt? (t : String) : Option Int :=
  match t.data with
  | [] => Option.none
  | '-' :: cs => if !cs.isEmpty && cs.all Char.isDigit then some (-(digitsVal cs : Int))
                 else Option.none
  | '+' :: cs => if !cs.isEmpty && cs.all Char.isDigit then some (digitsVal cs : Int)
                 else Option.none
  | cs => if cs.all Char.isDigit then some (digitsVal cs : Int) else Option.none

/-- Python `float(s)` on an already-stripped string, returned as an exact
rational (decimal/exponent grammar; the "inf"/"nan" literals and underscores
are not modelled): `[sign] (digits [. digits*] | . digits+) [(e|E) [sign] digits+]`. -/
def pyFloat? (t : String) : Option Rat :=
  let signCs : Int × List Char :=
    match t.data with
    | '-' :: rest => (-1, rest)
    | '+' :: rest => (1, rest)
    | rest => (1, rest)
  let sign := signCs.1
  let cs := signCs.2
  let ip := cs.takeWhile Char.isDigit
  let cs1 := cs.dropWhile Char.isDigit
  let fpCs : List Char × List Char :=
    match cs1 with
    | '.' :: rest => (rest.takeWhile Char.isDigit, rest.dropWhile Char.isDigit)
    | _ => ([], cs1)
  let fp := fpCs.1
  let cs2 := if cs1.head? = some '.' then fpCs.2 else cs1
  if ip.isEmpty && fp.isEmpty then Option.none
  else
    let mant : Rat := mkRat (sign * ((digitsVal ip * 10 ^ fp.length + digitsVal fp : Nat) : Int))
                            (10 ^ fp.length)
    match cs2 with
    | [] => some mant
    | e :: rest =>
      if e = 'e' ∨ e = 'E' then
        match pyInt? ⟨rest⟩ with
        | some ex => some (if 0 ≤ ex then mant * ((10 ^ ex.toNat : Nat) : Rat)
                           else mant / ((10 ^ (-ex).toNat : Nat) : Rat))
        | Option.none => Option.none
      else Option.none

/-! Python `repr`/`str` of embedded values.  The float case is an approximation
(Python prints the shortest round-tripping decimal; here the exact rational is
shown, with the integral case rendered exactly as Python does); no theorem below
evaluates the repr of a float or of a quoted string. -/

/-- Python `repr` of a float value (approximation, exact on integral floats). -/
def floatRepr (q : Rat) : String :=
  if q.den = 1 then toString q.num ++ ".0"
  else toString q.num ++ "/" ++ toString q.den

/-- The single-quote character, used by Python `repr` on strings. -/
def sq : Char := Char.ofNat 39

mutual

/-- Python `repr(v)` (string escaping inside quotes is not modelled). -/
def pyRepr : PyVal → String
  | .none => "None"
  | .bool b => if b then "True" else "False"
  | .int n => toString n
  | .float q => floatRepr q
  | .str s => ⟨sq :: s.data ++ [sq]⟩
  | .list xs => "[" ++ String.intercalate ", " (pyReprList xs) ++ "]"
  | .dict kvs => "\x7b" ++ String.intercalate ", " (pyReprDict kvs) ++ "\x7d"

/-- `repr` of the items of a Python list. -/
def pyReprList : List PyVal → List String
  | [] => []
  | x :: xs => pyRepr x :: pyReprList xs

/-- `repr` of the items of a Python dict. -/
def pyReprDict : List (String × PyVal) → List String
  | [] => []
  | (k, v) :: xs => ((⟨sq :: k.data ++ [sq]⟩ : String) ++ ": " ++ pyRepr v) :: pyReprDict xs

end

/-- Python `str(v)`: the string itself for a string, `repr` otherwise (which
coincides with Python `str` on the value shapes reached by the embedded code). -/
def pyStr : PyVal → String
  | .str s => s
  | v => pyRepr v

/-! Embedding of `PySERALogic._normalize` (src/PySERA/PySera.py, identical in
src/PySera_Ext/PySera.py).  The two Python `try/except` blocks around `int`/
`float` are modelled by the `Option`-valued parsers: a `Option.none` result is
exactly the raised-and-caught exception. -/

/-- The parse attempt of the comma-split branch:
`int(part) if part.isdigit() else float(part)`, on the stripped part. -/
def partNumParse (q : String) : Option PyVal :=
  if pyIsDigit q then (pyInt? q).map PyVal.int
  else (pyFloat? q).map PyVal.float

/-- One comma-separated part of `_normalize`: strip, map the token "none" to
None, otherwise parse as a number, keeping the (stripped) part as a string when
parsing fails. -/
def coercePart (p : String) : PyVal :=
  let q := pyStrip p
  if pyLower q = "none" then PyVal.none
  else
    match partNumParse q with
    | some r => r
    | Option.none => PyVal.str q

/-- The final scalar parse attempt of `_normalize`:
`float(s)` when the string contains a dot or an exponent marker, else `int(s)`. -/
def scalarParse (t : String) : Option PyVal :=
  if pyContains t '.' || pyContains (pyLower t) 'e' then (pyFloat? t).map PyVal.float
  else (pyInt? t).map PyVal.int

/-- `PySERALogic._normalize`. -/
def normalize : PyVal → PyVal
  | .none => PyVal.none
  | .bool b => PyVal.int (if b then 1 else 0)
  | .int n => PyVal.int n
  | .float q => PyVal.float q
  | v =>
    let s := pyStrip (pyStr v)
    if s = "" then PyVal.str ""
    else if pyLower s = "none" then PyVal.none
    else if pyLower s = "auto" then PyVal.str "auto"
    else if pyContains s ',' then PyVal.list ((pySplitComma s).map coercePart)
    else
      match scalarParse s with
      | some r => r
      | Option.none => PyVal.str s

/-! Python dicts are modelled as association lists in insertion order with
unique keys (uniqueness is a hypothesis where a theorem needs it). -/

/-- A Python dict with string keys. -/
abbrev PyDict := List (String × PyVal)

/-- The key list of a dict, in insertion order. -/
def dkeys (d : PyDict) : List String := d.map Prod.fst

/-- Python `d[k] = v`: replace the value in place if the key exists, else
append the new binding. -/
def dinsert (d : PyDict) (k : String) (v : PyVal) : PyDict :=
  if d.any (fun p => p.1 = k) then d.map (fun p => if p.1 = k then (k, v) else p)
  else d ++ [(k, v)]

/-- Python `d.get(k)` as an option (`Option.none` when the key is absent). -/
def dget? (d : PyDict) (k : String) : Option PyVal :=
  (d.find? (fun p => p.1 = k)).map Prod.snd

/-- Python `d.update(e)`: assign every binding of `e` into `d`, in order. -/
def dupdate (d e : PyDict) : PyDict :=
  e.foldl (fun acc p => dinsert acc p.1 p.2) d

/-- `PySERALogic._compose_cfg` (src/PySERA/PySera.py): prefix the defaults
block with "radiomics_", overlay the file-level keys already carrying that
prefix, then overlay the UI parameters.  (The PySera_Ext variant re-assigns two
defaults it has just written, a no-op, and is otherwise identical.) -/
def compose_cfg (rdef cfgFile ui : PyDict) : PyDict :=
  let cfg := rdef.foldl (fun acc p => dinsert acc ("radiomics_" ++ p.1) p.2) []
  let cfg := cfgFile.foldl
    (fun acc p => if pyStartsWith p.1 "radiomics_" then dinsert acc p.1 p.2 else acc) cfg
  dupdate cfg ui

/-! Embedding of `PySERALogic._build_cli_kwargs` (src/PySERA/PySera.py). -/

/-- The destination parameter names always passed through as plain strings. -/
def passthruStr : List String :=
  ["categories", "dimensions", "extraction_mode", "deep_learning_model", "report"]

/-- Python `v is None`. -/
def isPyNone : PyVal → Bool
  | .none => true
  | _ => false

/-- Python `v is None or v == ""` (equality with the empty string holds only
for the empty-string value). -/
def isNoneOrEmptyStr : PyVal → Bool
  | .none => true
  | .str s => s = ""
  | _ => false

/-- One iteration of the translation loop of `_build_cli_kwargs`. -/
def cliStep (cfg : PyDict) (cli : PyDict) (kv : String × String) : PyDict :=
  match dget? cfg kv.1 with
  | Option.none => cli
  | some raw =>
    if isNoneOrEmptyStr raw then cli
    else if passthruStr.contains kv.2 then dinsert cli kv.2 (PyVal.str (pyStr raw))
    else
      let val := normalize raw
      if isNoneOrEmptyStr val then cli else dinsert cli kv.2 val

/-- The inclusion condition for the model name:
`model is not None and str(model).strip().lower() not in ("", "none")`. -/
def modelCond (m : PyVal) : Bool :=
  !isPyNone m && !(pyLower (pyStrip (pyStr m)) = "" || pyLower (pyStrip (pyStr m)) = "none")

/-- The inclusion condition for the report level:
`rep is not None and str(rep).strip() != ""`. -/
def repCond (r : PyVal) : Bool :=
  !isPyNone r && !(pyStrip (pyStr r) = "")

/-- `PySERALogic._build_cli_kwargs`: translate the merged configuration through
the key map, force-set the extraction mode, and conditionally set the model
name and report level. -/
def build_cli_kwargs (cliMap : List (String × String)) (cfg : PyDict) : PyDict :=
  let cli := cliMap.foldl (cliStep cfg) []
  let cli := dinsert cli "extraction_mode"
    (PyVal.str (pyStr ((dget? cfg "radiomics_extraction_mode").getD
      (PyVal.str "handcrafted_feature"))))
  let model := (dget? cfg "radiomics_deep_learning_model").getD PyVal.none
  let cli := if modelCond model then
    dinsert cli "deep_learning_model" (PyVal.str (pyStr model)) else cli
  let rep := (dget? cfg "radiomics_report").getD PyVal.none
  if repCond rep then dinsert cli "report" (PyVal.str (pyStr rep)) else cli

/-! Sorting of dict keys (`keys.sort()` in `feature_rows_from_result`): Python
sorts strings lexicographically by code point.  The order is given as a
boolean comparison so that proofs and witnesses can evaluate it. -/

/-- Lexicographic code-point comparison of character lists. -/
def charListLeB : List Char → List Char → Bool
  | [], _ => true
  | _ :: _, [] => false
  | c :: cs, d :: ds =>
    if c.toNat < d.toNat then true
    else if d.toNat < c.toNat then false
    else charListLeB cs ds

/-- Python string comparison `a <= b` (code-point lexicographic). -/
def strLe (a b : String) : Prop := charListLeB a.data b.data = true

instance : DecidableRel strLe := fun a b => by unfold strLe; infer_instance

/-- `list.sort()` on a list of string keys: a stable sort under `strLe`. -/
def sortStrings (l : List String) : List String := l.insertionSort strLe

/-! Embedding of `PySERALogic.feature_rows_from_result` (src/PySERA/PySera.py,
the variant with the metadata filter).  A row is a (name, value) pair; the
Python code builds rows as two-element lists whose first element it always
constructs with `str(...)`. -/

/-- The deny-list of the metadata filter `_filter_meta`. -/
def metaDrop : List String := ["patientid", "roi", "case", "subject", "image", "mask"]

/-- `_filter_meta`: drop rows whose stripped, lower-cased name is deny-listed. -/
def filterMeta (pairs : List (PyVal × PyVal)) : List (PyVal × PyVal) :=
  pairs.filter (fun r => !metaDrop.contains (pyLower (pyStrip (pyStr r.1))))

/-- The sorted (name, value) pairs of a mapping payload: sort the keys, then
look each one up (`fx[k]` always succeeds for a key of `fx`; the `.getD`
default is unreachable there). -/
def sortedPairs (kvs : PyDict) : List (PyVal × PyVal) :=
  (sortStrings (dkeys kvs)).map (fun k => (PyVal.str k, (dget? kvs k).getD PyVal.none))

/-- Rows contributed by one item of a general list payload. -/
def itemPairs : PyVal → List (PyVal × PyVal)
  | .list ys =>
    match ys with
    | a :: b :: _ => [(PyVal.str (pyStr a), b)]
    | _ => []
  | .dict kvs =>
    match dget? kvs "feature", dget? kvs "value" with
    | some f, some v => [(PyVal.str (pyStr f), v)]
    | _, _ => kvs.map (fun p => (PyVal.str p.1, p.2))
  | _ => []

/-- The 2×N transpose case of a list payload: exactly two equal-length,
nonempty sub-lists. -/
def transposed? : List PyVal → Option (List (PyVal × PyVal))
  | [.list ns, .list vs] =>
    if ns.length = vs.length ∧ 0 < ns.length then
      some ((ns.zip vs).map (fun p => (PyVal.str (pyStr p.1), p.2)))
    else Option.none
  | _ => Option.none

/-- Rows of a list payload: the transpose case when it matches, else the
general mixed-item case. -/
def listRows (xs : List PyVal) : List (PyVal × PyVal) :=
  match transposed? xs with
  | some pairs => filterMeta pairs
  | Option.none => filterMeta ((xs.map itemPairs).flatten)

/-! Model of the standard-library `json.loads`, used by the string branch of
the normalizer: a fuel-bounded recursive-descent parser for objects, arrays,
strings (with the standard escapes), numbers and the three literals.  The
number grammar reuses the numeric parsers above; `NaN`/`Infinity` extensions
are not modelled.  No theorem depends on the parsed value of a particular JSON
document, only on the shape dispatch around the parse. -/

/-- JSON whitespace skipping. -/
def jskipWs (cs : List Char) : List Char :=
  cs.dropWhile (fun c => c = ' ' || c = '\t' || c = '\n' || c = '\r')

/-- Hexadecimal digit value. -/
def hexVal? (c : Char) : Option Nat :=
  if 48 ≤ c.toNat ∧ c.toNat ≤ 57 then some (c.toNat - 48)
  else if 97 ≤ c.toNat ∧ c.toNat ≤ 102 then some (c.toNat - 87)
  else if 65 ≤ c.toNat ∧ c.toNat ≤ 70 then some (c.toNat - 55)
  else Option.none

/-- JSON string body after the opening quote. -/
def jstringAux (fuel : Nat) (acc : List Char) (cs : List Char) : Option (String × List Char) :=
  match fuel, cs with
  | 0, _ => Option.none
  | _, [] => Option.none
  | fuel + 1, c :: cs =>
    if c = '"' then some (⟨acc.reverse⟩, cs)
    else if c = '\\' then
      match cs with
      | [] => Option.none
      | e :: cs2 =>
        if e = '"' then jstringAux fuel ('"' :: acc) cs2
        else if e = '\\' then jstringAux fuel ('\\' :: acc) cs2
        else if e = '/' then jstringAux fuel ('/' :: acc) cs2
        else if e = 'n' then jstringAux fuel ('\n' :: acc) cs2
        else if e = 't' then jstringAux fuel ('\t' :: acc) cs2
        else if e = 'r' then jstringAux fuel ('\r' :: acc) cs2
        else if e = 'b' then jstringAux fuel (Char.ofNat 8 :: acc) cs2
        else if e = 'f' then jstringAux fuel (Char.ofNat 12 :: acc) cs2
        else if e = 'u' then
          match cs2 with
          | h1 :: h2 :: h3 :: h4 :: cs3 =>
            match hexVal? h1, hexVal? h2, hexVal? h3, hexVal? h4 with
            | some a, some b, some c3, some d =>
              jstringAux fuel (Char.ofNat (((a * 16 + b) * 16 + c3) * 16 + d) :: acc) cs3
            | _, _, _, _ => Option.none
          | _ => Option.none
        else Option.none
    else jstringAux fuel (c :: acc) cs

/-- JSON number: the longest run of number characters, interpreted as an
integer when it has no dot or exponent, else as a float. -/
def jnumber (cs : List Char) : Option (PyVal × List Char) :=
  let isNumChar : Char → Bool := fun c =>
    c.isDigit || c = '-' || c = '+' || c = '.' || c = 'e' || c = 'E'
  let body := cs.takeWhile isNumChar
  let rest := cs.dropWhile isNumChar
  if body.isEmpty then Option.none
  else if body.contains '.' || body.contains 'e' || body.contains 'E' then
    (pyFloat? ⟨body⟩).map (fun q => (PyVal.float q, rest))
  else
    (pyInt? ⟨body⟩).map (fun n => (PyVal.int n, rest))

mutual

/-- JSON value. -/
def jparse : Nat → List Char → Option (PyVal × List Char)
  | 0, _ => Option.none
  | fuel + 1, cs =>
    match jskipWs cs with
    | [] => Option.none
    | c :: rest =>
      if c = '"' then (jstringAux (rest.length + 1) [] rest).map (fun p => (PyVal.str p.1, p.2))
      else if c = Char.ofNat 123 then jobj fuel rest []
      else if c = '[' then jarr fuel rest []
      else if c = 't' then
        match rest with
        | 'r' :: 'u' :: 'e' :: r => some (PyVal.bool true, r)
        | _ => Option.none
      else if c = 'f' then
        match rest with
        | 'a' :: 'l' :: 's' :: 'e' :: r => some (PyVal.bool false, r)
        | _ => Option.none
      else if c = 'n' then
        match rest with
        | 'u' :: 'l' :: 'l' :: r => some (PyVal.none, r)
        | _ => Option.none
      else jnumber (c :: rest)

/-- JSON object members after the opening brace. -/
def jobj : Nat → List Char → PyDict → Option (PyVal × List Char)
  | 0, _, _ => Option.none
  | fuel + 1, cs, acc =>
    match jskipWs cs with
    | [] => Option.none
    | c :: rest =>
      if c = Char.ofNat 125 then
        if acc.isEmpty then some (PyVal.dict acc.reverse, rest) else Option.none
      else if c = ',' then
        if acc.isEmpty then Option.none else jobjMember fuel rest acc
      else if acc.isEmpty then jobjMember fuel (c :: rest) acc
      else Option.none

/-- One `"key": value` member of a JSON object, then the rest of the object. -/
def jobjMember : Nat → List Char → PyDict → Option (PyVal × List Char)
  | 0, _, _ => Option.none
  | fuel + 1, cs, acc =>
    match jskipWs cs with
    | '"' :: rest =>
      match jstringAux (rest.length + 1) [] rest with
      | some (k, rest2) =>
        match jskipWs rest2 with
        | ':' :: rest3 =>
          match jparse fuel rest3 with
          | some (v, rest4) =>
            match jskipWs rest4 with
            | Char.ofNat 125 :: rest5 =>
              some (PyVal.dict ((k, v) :: acc).reverse, rest5)
            | ',' :: rest5 => jobjMember fuel rest5 ((k, v) :: acc)
            | _ => Option.none
          | Option.none => Option.none
        | _ => Option.none
      | Option.none => Option.none
    | _ => Option.none

/-- JSON array elements after the opening bracket. -/
def jarr : Nat → List Char → List PyVal → Option (PyVal × List Char)
  | 0, _, _ => Option.none
  | fuel + 1, cs, acc =>
    match jskipWs cs with
    | [] => Option.none
    | c :: rest =>
      if c = ']' then
        if acc.isEmpty then some (PyVal.list acc.reverse, rest) else Option.none
      else if c = ',' then
        if acc.isEmpty then Option.none else jarrElem fuel rest acc
      else if acc.isEmpty then jarrElem fuel (c :: rest) acc
      else Option.none

/-- One element of a JSON array, then the rest of the array. -/
def jarrElem : Nat → List Char → List PyVal → Option (PyVal × List Char)
  | 0, _, _ => Option.none
  | fuel + 1, cs, acc =>
    match jparse fuel cs with
    | some (v, rest) =>
      match jskipWs rest with
      | ']' :: rest2 => some (PyVal.list (v :: acc).reverse, rest2)
      | ',' :: rest2 => jarrElem fuel rest2 (v :: acc)
      | _ => Option.none
    | Option.none => Option.none

end

/-- `json.loads(s)`, returning `Option.none` for the raised `JSONDecodeError`. -/
def jsonLoads? (s : String) : Option PyVal :=
  match jparse (s.length + 1) s.data with
  | some (v, rest) => if (jskipWs rest).isEmpty then some v else Option.none
  | Option.none => Option.none

/-- The string branch of `feature_rows_from_result`: attempt a JSON parse of
the stripped string; a parsed mapping is emitted like the mapping case, any
other outcome wraps the original string as a single pseudo-row. -/
def strRows (s : String) : List (PyVal × PyVal) :=
  match jsonLoads? (pyStrip s) with
  | some (PyVal.dict kvs) => filterMeta (sortedPairs kvs)
  | _ => [(PyVal.str "features_extracted", PyVal.str s)]

/-- `PySERALogic.feature_rows_from_result` (src/PySERA/PySera.py): dispatch on
the shape of the "features_extracted" entry.  The duck-typed DataFrame branch
is skipped for every embedded value (no embedded value has a `columns`
attribute). -/
def feature_rows_from_result (result : PyVal) : List (PyVal × PyVal) :=
  match result with
  | .dict res =>
    match dget? res "features_extracted" with
    | Option.none => []
    | some fx =>
      match fx with
      | .none => []
      | .dict kvs => filterMeta (sortedPairs kvs)
      | .list xs => listRows xs
      | .str s => strRows s
      | other => [(PyVal.str "features_extracted", PyVal.str (pyStr other))]
  | _ => []

/-- A "features_extracted" value of none of the recognized shapes (not a
mapping, not a list, not a string, and not none): exactly the values reaching
the final stringify-and-wrap return of `feature_rows_from_result`. -/
def isOtherKind : PyVal → Bool
  | .bool _ => true
  | .int _ => true
  | .float _ => true
  | _ => false

/-- A payload with no usable shape: not a mapping at all, or a mapping whose
"features_extracted" entry is absent or none (`result.get(...)` returns the
None default in both of the latter cases). -/
def noUsableShape : PyVal → Bool
  | .dict res =>
    (match dget? res "features_extracted" with
     | Option.none => true
     | some PyVal.none => true
     | some _ => false)
  | _ => true

/-! Embedding of `PySERALogic._wait_for_readable_file`: the file system is
abstracted as a sequence of attempt outcomes, one per loop iteration.  One
iteration either finds the file ready (exists, non-empty, openable), or finds
it not ready without raising, or raises an error which the loop records and
swallows.  After the retry budget the last recorded error is re-raised, or
not-ready is returned when no iteration raised. -/

/-- Outcome of one readiness check. -/
inductive Attempt where
  | ready : Attempt
  | notReady : Attempt
  | err (e : String) : Attempt
deriving DecidableEq, Repr

/-- The retry loop of `_wait_for_readable_file`, from attempt index `i` with
`fuel` attempts left and `lastErr` the last error recorded so far. -/
def waitLoop (outcome : Nat → Attempt) : Nat → Nat → Option String → Except String Bool
  | _, 0, lastErr =>
    match lastErr with
    | some e => Except.error e
    | Option.none => Except.ok false
  | i, fuel + 1, lastErr =>
    match outcome i with
    | .ready => Except.ok true
    | .notReady => waitLoop outcome (i + 1) fuel lastErr
    | .err e => waitLoop outcome (i + 1) fuel (some e)

/-- `PySERALogic._wait_for_readable_file` over an outcome sequence:
`Except.error` is the re-raised exception, `Except.ok` the returned boolean. -/
def waitForReadableFile (outcome : Nat → Attempt) (retries : Nat) : Except String Bool :=
  waitLoop outcome 0 retries Option.none

/-- The last error raised among attempts `start, …, start + fuel - 1`. -/
def lastErrIn (outcome : Nat → Attempt) (start fuel : Nat) : Option String :=
  match fuel with
  | 0 => Option.none
  | fuel + 1 =>
    match lastErrIn outcome (start + 1) fuel with
    | some e => some e
    | Option.none =>
      match outcome start with
      | .err e => some e
      | _ => Option.none

/-! Embedding of the CSV-parsing part of
`PySERALogic.load_features_as_feature_value_rows` (src/PySERA/PySera.py): the
function is applied to the list of records produced by `csv.reader` once the
file-readiness wait has succeeded (reading the file itself is a host effect
outside the embedding). -/

/-- Recognition of the long-format header: at least two columns whose first
two stripped, lower-cased entries are a known name/value label pair. -/
def longHeader (header : List String) : Bool :=
  match header with
  | h0 :: h1 :: _ =>
    (pyLower (pyStrip h0) = "feature" || pyLower (pyStrip h0) = "name")
      && (pyLower (pyStrip h1) = "value" || pyLower (pyStrip h1) = "val")
  | _ => false

/-- The last-resort branch: each non-empty data row becomes one pseudo-row
whose name is the comma-joined row and whose value is empty. -/
def pseudoRows (rest : List (List String)) : List (String × String) :=
  rest.filterMap (fun r =>
    if r.isEmpty then Option.none else some (String.intercalate "," r, ""))

/-- The CSV-to-rows translation of `load_features_as_feature_value_rows`:
long format when the header labels match, else wide format when the second
record has the header's column count (and there are at least two columns),
else pseudo-rows. -/
def loadFeaturesRows (records : List (List String)) : List (String × String) :=
  match records with
  | [] => []
  | header :: rest =>
    if longHeader header then
      rest.filterMap (fun r =>
        match r with
        | a :: b :: _ => some (a, b)
        | _ => Option.none)
    else
      match rest with
      | v :: _ =>
        if v.length = header.length ∧ 2 ≤ header.length then header.zip v
        else pseudoRows rest
      | [] => pseudoRows rest

/-! The definitions above complete the embedding; the remainder of the file
proves properties about them.  First, the string comparison used by
`sortStrings` is a total transitive order. -/

theorem charListLeB_total : ∀ a b, charListLeB a b = true ∨ charListLeB b a = true := by
  intro a
  induction a with
  | nil => intro b; left; rfl
  | cons c cs ih =>
    intro b
    cases b with
    | nil => right; rfl
    | cons d ds =>
      simp only [charListLeB]
      rcases Nat.lt_trichotomy c.toNat d.toNat with h | h | h
      · left; simp [h]
      · have h1 : ¬ c.toNat < d.toNat := by omega
        have h2 : ¬ d.toNat < c.toNat := by omega
        rcases ih ds with h3 | h3
        · left; simp [h1, h2, h3]
        · right; simp [h1, h2, h3]
      · right; simp [h, Nat.lt_asymm h]

theorem charListLeB_trans : ∀ a b c, charListLeB a b = true → charListLeB b c = true →
    charListLeB a c = true := by
  intro a
  induction a with
  | nil => intros; rfl
  | cons x xs ih =>
    intro b c hab hbc
    cases b with
    | nil => simp [charListLeB] at hab
    | cons y ys =>
      cases c with
      | nil => simp [charListLeB] at hbc
      | cons z zs =>
        simp only [charListLeB] at hab hbc ⊢
        by_cases h1 : x.toNat < y.toNat <;> by_cases h2 : y.toNat < z.toNat
        · simp [Nat.lt_trans h1 h2]
        · by_cases h4 : z.toNat < y.toNat
          · simp [h2, h4] at hbc
          · have hxz : x.toNat < z.toNat := by omega
            simp [hxz]
        · by_cases h3 : y.toNat < x.toNat
          · simp [h1, h3] at hab
          · have hxz : x.toNat < z.toNat := by omega
            simp [hxz]
        · by_cases h3 : y.toNat < x.toNat
          · simp [h1, h3] at hab
          · by_cases h4 : z.toNat < y.toNat
            · simp [h2, h4] at hbc
            · have hxz : ¬ x.toNat < z.toNat := by omega
              have hzx : ¬ z.toNat < x.toNat := by omega
              simp [h1, h3] at hab
              simp [h2, h4] at hbc
              simp [hxz, hzx]
              exact ih ys zs hab hbc

instance : IsTotal String strLe := ⟨fun a b => charListLeB_total a.data b.data⟩

instance : IsTrans String strLe :=
  ⟨fun a b c => charListLeB_trans a.data b.data c.data⟩

/-! Association-list lemmas for the Python-dict model. -/

theorem find?_append (l1 l2 : PyDict) (p : String × PyVal → Bool) :
    (l1 ++ l2).find? p =
      match l1.find? p with
      | some x => some x
      | Option.none => l2.find? p := by
  induction l1 with
  | nil => simp
  | cons a tl ih =>
    by_cases ha : p a = true
    · simp [List.find?_cons_of_pos _ ha, ha]
    · rw [List.cons_append, List.find?_cons_of_neg _ ha, List.find?_cons_of_neg _ ha, ih]

theorem find?_map_set (d : PyDict) (k m : String) (v : PyVal) :
    (d.map (fun p => if p.1 = k then (k, v) else p)).find? (fun p => p.1 = m) =
      if m = k then (d.find? (fun p => p.1 = k)).map (fun _ => (k, v))
      else d.find? (fun p => p.1 = m) := by
  induction d with
  | nil => by_cases hmk : m = k <;> simp [hmk]
  | cons p tl ih =>
    rw [List.map_cons]
    by_cases hpk : p.1 = k
    · rw [if_pos hpk]
      by_cases hmk : m = k
      · subst hmk
        rw [List.find?_cons_of_pos _ (by simp), if_pos rfl,
            List.find?_cons_of_pos _ (by simpa using hpk)]
        simp
      · rw [List.find?_cons_of_neg _ (by simpa using fun h : k = m => hmk h.symm), ih,
            if_neg hmk, if_neg hmk,
            List.find?_cons_of_neg _ (by simpa using fun h : p.1 = m => hmk (hpk ▸ h).symm)]
    · rw [if_neg hpk]
      by_cases hmk : m = k
      · subst hmk
        rw [List.find?_cons_of_neg _ (by simpa using hpk), ih, if_pos rfl, if_pos rfl,
            List.find?_cons_of_neg _ (by simpa using hpk)]
      · by_cases hpm : p.1 = m
        · rw [List.find?_cons_of_pos _ (by simpa using hpm), if_neg hmk,
              List.find?_cons_of_pos _ (by simpa using hpm)]
        · rw [List.find?_cons_of_neg _ (by simpa using hpm), ih, if_neg hmk, if_neg hmk,
              List.find?_cons_of_neg _ (by simpa using hpm)]

theorem dget?_dinsert (d : PyDict) (k : String) (v : PyVal) (m : String) :
    dget? (dinsert d k v) m = if m = k then some v else dget? d m := by
  unfold dinsert dget?
  by_cases hany : d.any (fun p => p.1 = k) = true
  · rw [if_pos hany, find?_map_set]
    by_cases hmk : m = k
    · rw [if_pos hmk, if_pos hmk]
      rcases hfind : d.find? (fun p => p.1 = k) with _ | p
      · rw [List.find?_eq_none] at hfind
        rcases List.any_eq_true.mp hany with ⟨p, hp, hpk⟩
        exact absurd hpk (by simpa using hfind p hp)
      · rw [hfind]
        simp
    · rw [if_neg hmk, if_neg hmk]
  · rw [if_neg hany, find?_append]
    have hnone : d.find? (fun p => decide (p.1 = k)) = Option.none := by
      rw [List.find?_eq_none]
      intro p hp
      have := List.any_eq_false.mp (Bool.not_eq_true _ ▸ hany) p hp
      simpa using this
    by_cases hmk : m = k
    · subst hmk
      rw [hnone]
      simp
    · rcases hfind : d.find? (fun p => decide (p.1 = m)) with _ | p
      · rw [if_neg hmk, hfind,
            List.find?_cons_of_neg _ (by simpa using fun h : k = m => hmk h.symm)]
        simp
      · rw [if_neg hmk, hfind]

theorem dkeys_dinsert (d : PyDict) (k : String) (v : PyVal) :
    dkeys (dinsert d k v) =
      if d.any (fun p => p.1 = k) then dkeys d else dkeys d ++ [k] := by
  unfold dinsert dkeys
  by_cases hany : d.any (fun p => p.1 = k) = true
  · rw [if_pos hany, if_pos hany, List.map_map]
    refine List.map_congr_left (fun p _ => ?_)
    by_cases hpk : p.1 = k <;> simp [hpk]
  · rw [if_neg hany, if_neg hany, List.map_append]
    rfl

theorem dkeys_cons (p : String × PyVal) (tl : PyDict) : dkeys (p :: tl) = p.1 :: dkeys tl := rfl

theorem mem_dkeys_dinsert (d : PyDict) (k : String) (v : PyVal) (m : String) :
    m ∈ dkeys (dinsert d k v) ↔ m ∈ dkeys d ∨ m = k := by
  rw [dkeys_dinsert]
  by_cases hany : d.any (fun p => p.1 = k) = true
  · rw [if_pos hany]
    constructor
    · exact Or.inl
    · rintro (h | rfl)
      · exact h
      · rcases List.any_eq_true.mp hany with ⟨p, hp, hpk⟩
        exact List.mem_map.mpr ⟨p, hp, by simpa using hpk⟩
  · rw [if_neg hany]
    simp

theorem dget?_eq_none_iff (d : PyDict) (m : String) :
    dget? d m = Option.none ↔ m ∉ dkeys d := by
  unfold dget? dkeys
  rw [Option.map_eq_none', List.find?_eq_none]
  constructor
  · intro h hm
    rcases List.mem_map.mp hm with ⟨p, hp, hpm⟩
    exact absurd (by simpa using hpm : (fun p => decide (p.1 = m)) p = true) (h p hp)
  · intro h p hp hpm
    exact h (List.mem_map.mpr ⟨p, hp, by simpa using hpm⟩)

theorem dget?_dupdate (e : PyDict) (he : (dkeys e).Nodup) (d : PyDict) (m : String) :
    dget? (dupdate d e) m = if m ∈ dkeys e then dget? e m else dget? d m := by
  induction e generalizing d with
  | nil => simp [dupdate, dkeys]
  | cons p tl ih =>
    rw [dkeys_cons, List.nodup_cons] at he
    have hp : p.1 ∉ dkeys tl := he.1
    have htl : (dkeys tl).Nodup := he.2
    have hstep : dupdate d (p :: tl) = dupdate (dinsert d p.1 p.2) tl := rfl
    rw [hstep, ih htl, dkeys_cons]
    by_cases hm : m ∈ dkeys tl
    · rw [if_pos hm, if_pos (List.mem_cons.mpr (Or.inr hm))]
      have hpm : ¬ (p.1 = m) := fun h => hp (h ▸ hm)
      unfold dget?
      rw [List.find?_cons_of_neg _ (by simpa using hpm)]
    · rw [if_neg hm, dget?_dinsert]
      by_cases hmp : m = p.1
      · subst hmp
        rw [if_pos rfl, if_pos (List.mem_cons.mpr (Or.inl rfl))]
        unfold dget?
        rw [List.find?_cons_of_pos _ (by simp)]
        rfl
      · rw [if_neg hmp,
            if_neg (fun h => (List.mem_cons.mp h).elim (fun h1 => hmp h1) (fun h2 => hm h2))]

theorem mem_dkeys_dupdate (e d : PyDict) (m : String) :
    m ∈ dkeys (dupdate d e) ↔ m ∈ dkeys d ∨ m ∈ dkeys e := by
  induction e generalizing d with
  | nil => simp [dupdate, dkeys]
  | cons p tl ih =>
    have hstep : dupdate d (p :: tl) = dupdate (dinsert d p.1 p.2) tl := rfl
    rw [hstep, ih, mem_dkeys_dinsert, dkeys_cons, List.mem_cons]
    tauto

/-! The two layer-folds of `_compose_cfg`, re-expressed as dict updates. -/

theorem foldl_dinsert_pre_eq (l : PyDict) (pre : String) :
    ∀ d : PyDict, l.foldl (fun acc p => dinsert acc (pre ++ p.1) p.2) d
      = dupdate d (l.map (fun p => (pre ++ p.1, p.2))) := by
  induction l with
  | nil => intro d; rfl
  | cons p tl ih => intro d; exact ih (dinsert d (pre ++ p.1) p.2)

theorem foldl_filter_dinsert_eq (l : PyDict) (c : String → Bool) :
    ∀ d : PyDict, l.foldl (fun acc p => if c p.1 then dinsert acc p.1 p.2 else acc) d
      = dupdate d (l.filter (fun p => c p.1)) := by
  induction l with
  | nil => intro d; rfl
  | cons p tl ih =>
    intro d
    by_cases hc : c p.1 = true
    · rw [List.foldl_cons, if_pos hc, ih, List.filter_cons_of_pos (by simpa using hc)]
      rfl
    · rw [List.foldl_cons, if_neg hc, ih,
          List.filter_cons_of_neg (by simpa using hc)]

theorem compose_cfg_eq (rdef cfgFile ui : PyDict) :
    compose_cfg rdef cfgFile ui =
      dupdate (dupdate (dupdate [] (rdef.map (fun p => ("radiomics_" ++ p.1, p.2))))
          (cfgFile.filter (fun p => pyStartsWith p.1 "radiomics_"))) ui := by
  show dupdate
      (List.foldl (fun acc p => if pyStartsWith p.1 "radiomics_" then dinsert acc p.1 p.2 else acc)
        (List.foldl (fun acc p => dinsert acc ("radiomics_" ++ p.1) p.2) [] rdef) cfgFile) ui = _
  rw [foldl_dinsert_pre_eq,
      foldl_filter_dinsert_eq cfgFile (fun k => pyStartsWith k "radiomics_")]

theorem dkeys_map_pre (l : PyDict) (pre : String) :
    dkeys (l.map (fun p => (pre ++ p.1, p.2))) = (dkeys l).map (fun k => pre ++ k) := by
  unfold dkeys
  rw [List.map_map, List.map_map]
  rfl

theorem dkeys_filter_key (l : PyDict) (c : String → Bool) :
    dkeys (l.filter (fun p => c p.1)) = (dkeys l).filter c := by
  induction l with
  | nil => rfl
  | cons p tl ih =>
    by_cases hc : c p.1 = true
    · rw [List.filter_cons_of_pos (by simpa using hc), dkeys_cons, ih, dkeys_cons,
          List.filter_cons_of_pos hc]
    · rw [List.filter_cons_of_neg (by simpa using hc), ih, dkeys_cons,
          List.filter_cons_of_neg hc]

theorem dget?_filter_key (l : PyDict) (c : String → Bool) (m : String) (hc : c m = true) :
    dget? (l.filter (fun p => c p.1)) m = dget? l m := by
  induction l with
  | nil => rfl
  | cons p tl ih =>
    by_cases hpm : p.1 = m
    · have hcp : c p.1 = true := hpm ▸ hc
      rw [List.filter_cons_of_pos (by simpa using hcp)]
      unfold dget?
      rw [List.find?_cons_of_pos _ (by simpa using hpm),
          List.find?_cons_of_pos _ (by simpa using hpm)]
    · by_cases hcp : c p.1 = true
      · rw [List.filter_cons_of_pos (by simpa using hcp)]
        unfold dget?
        rw [List.find?_cons_of_neg _ (by simpa using hpm),
            List.find?_cons_of_neg _ (by simpa using hpm)]
        exact ih
      · rw [List.filter_cons_of_neg (by simpa using hcp)]
        unfold dget?
        rw [List.find?_cons_of_neg _ (by simpa using hpm)]
        exact ih

/-- [C1, amended] Layering of `_compose_cfg`: a key of the UI-overrides layer
is always bound to the UI-supplied value; the merged key set consists of the
prefixed defaults keys, the file-level keys that carry the "radiomics_" prefix,
and the UI keys; and a prefixed file-level key not overridden by the UI keeps
its file-level value.  (The claim's "no key from any layer is dropped" fails
for file-level keys without the prefix, see the counterexample.) -/
theorem compose_cfg_layering (rdef cfgFile ui : PyDict)
    (hui : (dkeys ui).Nodup) (hcf : (dkeys cfgFile).Nodup) :
    (∀ k, k ∈ dkeys ui → dget? (compose_cfg rdef cfgFile ui) k = dget? ui k)
    ∧ (∀ k, k ∈ dkeys (compose_cfg rdef cfgFile ui) ↔
        ((∃ k0, k0 ∈ dkeys rdef ∧ k = "radiomics_" ++ k0)
          ∨ (k ∈ dkeys cfgFile ∧ pyStartsWith k "radiomics_" = true)
          ∨ k ∈ dkeys ui))
    ∧ (∀ k, k ∉ dkeys ui → k ∈ dkeys cfgFile → pyStartsWith k "radiomics_" = true →
        dget? (compose_cfg rdef cfgFile ui) k = dget? cfgFile k) := by
  rw [compose_cfg_eq]
  refine ⟨?_, ?_, ?_⟩
  · intro k hk
    rw [dget?_dupdate ui hui, if_pos hk]
  · intro k
    rw [mem_dkeys_dupdate, mem_dkeys_dupdate, mem_dkeys_dupdate, dkeys_map_pre,
        dkeys_filter_key cfgFile (fun k2 => pyStartsWith k2 "radiomics_"),
        show dkeys ([] : PyDict) = [] from rfl]
    constructor
    · rintro (((h | h) | h) | h)
      · exact absurd h (List.not_mem_nil k)
      · rcases List.mem_map.mp h with ⟨k0, hk0, rfl⟩
        exact Or.inl ⟨k0, hk0, rfl⟩
      · rcases List.mem_filter.mp h with ⟨hmem, hpre⟩
        exact Or.inr (Or.inl ⟨hmem, hpre⟩)
      · exact Or.inr (Or.inr h)
    · rintro (⟨k0, hk0, rfl⟩ | ⟨hmem, hpre⟩ | h)
      · exact Or.inl (Or.inl (Or.inr (List.mem_map.mpr ⟨k0, hk0, rfl⟩)))
      · exact Or.inl (Or.inr (List.mem_filter.mpr ⟨hmem, hpre⟩))
      · exact Or.inr h
  · intro k hkui hkcf hkpre
    rw [dget?_dupdate ui hui, if_neg hkui]
    have hnodupf : (dkeys (cfgFile.filter (fun p => pyStartsWith p.1 "radiomics_"))).Nodup := by
      rw [dkeys_filter_key cfgFile (fun k => pyStartsWith k "radiomics_")]
      exact hcf.filter _
    have hmemf : k ∈ dkeys (cfgFile.filter (fun p => pyStartsWith p.1 "radiomics_")) := by
      rw [dkeys_filter_key cfgFile (fun k => pyStartsWith k "radiomics_")]
      exact List.mem_filter.mpr ⟨hkcf, hkpre⟩
    rw [dget?_dupdate _ hnodupf, if_pos hmemf,
        dget?_filter_key cfgFile (fun k => pyStartsWith k "radiomics_") k hkpre]

/-- [C1, witness] The layering theorem instantiated at the spec's example:
default `num_workers="auto"`, UI override `radiomics_num_workers=4`. -/
theorem compose_cfg_layering_witness :
    dget? (compose_cfg [("num_workers", PyVal.str "auto")] []
        [("radiomics_num_workers", PyVal.int 4)]) "radiomics_num_workers"
      = some (PyVal.int 4) := by
  have h := compose_cfg_layering [("num_workers", PyVal.str "auto")] []
    [("radiomics_num_workers", PyVal.int 4)] (by decide) (by decide)
  rw [h.1 "radiomics_num_workers" (by decide)]
  rfl

/-- [C1, counterexample] A file-level key without the "radiomics_" prefix is
silently dropped by `_compose_cfg`, so the claim's "no key from any layer is
dropped, only overwritten" is false as stated. -/
theorem compose_cfg_drops_unprefixed_key :
    compose_cfg [] [("foo", PyVal.int 1)] [] = []
    ∧ dget? (compose_cfg [] [("foo", PyVal.int 1)] []) "foo" = Option.none := ⟨rfl, rfl⟩

/-! Claim C2: totality of the coercion and the keep-the-string failure mode.
The embedded `normalize` is a total function, so "never raises" holds by
construction; the parse-failure behaviour is stated below.  Note that the code
returns the *stripped* string (`s = str(v).strip()` is computed first), not
the original one. -/

theorem normalize_str_eq (s : String) :
    normalize (PyVal.str s) =
      (if pyStrip s = "" then PyVal.str ""
       else if pyLower (pyStrip s) = "none" then PyVal.none
       else if pyLower (pyStrip s) = "auto" then PyVal.str "auto"
       else if pyContains (pyStrip s) ',' then
         PyVal.list ((pySplitComma (pyStrip s)).map coercePart)
       else
         match scalarParse (pyStrip s) with
         | some r => r
         | Option.none => PyVal.str (pyStrip s)) := rfl

/-- [C2, amended] The coercion is total (it is a function of the embedding),
and on parse failure it keeps the string in *trimmed* form: a non-blank,
non-"none"/"auto", comma-free string whose numeric parse fails is returned as
its trimmed self; a comma-containing string is split and each part whose parse
fails (and is not the "none" token) is kept as its trimmed self. -/
theorem normalize_keeps_trimmed_string (s : String) :
    (pyStrip s ≠ "" → pyLower (pyStrip s) ≠ "none" → pyLower (pyStrip s) ≠ "auto" →
      pyContains (pyStrip s) ',' = false → scalarParse (pyStrip s) = Option.none →
      normalize (PyVal.str s) = PyVal.str (pyStrip s))
    ∧ (pyStrip s ≠ "" → pyLower (pyStrip s) ≠ "none" → pyLower (pyStrip s) ≠ "auto" →
      pyContains (pyStrip s) ',' = true →
      normalize (PyVal.str s) = PyVal.list ((pySplitComma (pyStrip s)).map coercePart))
    ∧ (∀ p : String, pyLower (pyStrip p) ≠ "none" → partNumParse (pyStrip p) = Option.none →
      coercePart p = PyVal.str (pyStrip p)) := by
  refine ⟨?_, ?_, ?_⟩
  · intro h1 h2 h3 h4 h5
    rw [normalize_str_eq, if_neg h1, if_neg h2, if_neg h3,
        if_neg (by simp [h4]), h5]
  · intro h1 h2 h3 h4
    rw [normalize_str_eq, if_neg h1, if_neg h2, if_neg h3, if_pos h4]
  · intro p h1 h2
    unfold coercePart
    rw [if_neg h1, h2]

/-- [C2, witness] The amended theorem applied to the parse-failing scalar
"abc", the comma string "a,b" with two failing parts, and the part "a". -/
theorem normalize_keeps_trimmed_string_witness :
    normalize (PyVal.str "abc") = PyVal.str "abc"
    ∧ normalize (PyVal.str "a,b") = PyVal.list [PyVal.str "a", PyVal.str "b"]
    ∧ coercePart "a" = PyVal.str "a" := by
  refine ⟨?_, ?_, ?_⟩
  · exact (normalize_keeps_trimmed_string "abc").1 (by decide) (by decide) (by decide)
      (by decide) rfl
  · exact (normalize_keeps_trimmed_string "a,b").2.1 (by decide) (by decide) (by decide)
      (by decide)
  · exact (normalize_keeps_trimmed_string "a").2.2 "a" (by decide) rfl

/-- [C2, counterexample] On parse failure the *stripped* string is returned,
not the original one: coercing " x " yields "x", so "the original string is
returned unchanged" is false as stated. -/
theorem normalize_does_not_keep_original_string :
    normalize (PyVal.str " x ") = PyVal.str "x"
    ∧ normalize (PyVal.str " x ") ≠ PyVal.str " x " := by
  have e : normalize (PyVal.str " x ") = PyVal.str "x" := rfl
  refine ⟨e, ?_⟩
  rw [e]
  intro h
  injection h with h2
  exact absurd h2 (by decide)

/-! Claim C3: the derived output parameters of `_build_cli_kwargs`. -/

theorem mem_dkeys_cliStep (cfg cli : PyDict) (kv : String × String) (m : String)
    (h : m ∈ dkeys (cliStep cfg cli kv)) : m ∈ dkeys cli ∨ m = kv.2 := by
  unfold cliStep at h
  split at h
  · exact Or.inl h
  · split at h
    · exact Or.inl h
    · split at h
      · exact (mem_dkeys_dinsert _ _ _ _).mp h
      · simp only [] at h
        split at h
        · exact Or.inl h
        · exact (mem_dkeys_dinsert _ _ _ _).mp h

theorem mem_dkeys_cliFold (cliMap : List (String × String)) (cfg : PyDict) :
    ∀ (acc : PyDict) (m : String), m ∈ dkeys (cliMap.foldl (cliStep cfg) acc) →
      m ∈ dkeys acc ∨ m ∈ cliMap.map Prod.snd := by
  induction cliMap with
  | nil => intro acc m h; exact Or.inl h
  | cons kv tl ih =>
    intro acc m h
    rw [List.foldl_cons] at h
    rcases ih (cliStep cfg acc kv) m h with h2 | h2
    · rcases mem_dkeys_cliStep cfg acc kv m h2 with h3 | h3
      · exact Or.inl h3
      · exact Or.inr (List.mem_map.mpr ⟨kv, List.mem_cons_self _ _, h3.symm⟩)
    · exact Or.inr (List.mem_cons.mpr (Or.inr h2))

theorem dget?_cliFold_none (cliMap : List (String × String)) (cfg : PyDict) (m : String)
    (hm : m ∉ cliMap.map Prod.snd) :
    dget? (cliMap.foldl (cliStep cfg) []) m = Option.none := by
  rw [dget?_eq_none_iff]
  intro hmem
  rcases mem_dkeys_cliFold cliMap cfg [] m hmem with h | h
  · exact absurd h (List.not_mem_nil m)
  · exact hm h

/-- [C3, amended] After translation, the CLI keyword mapping always contains
the extraction-mode key, bound to the string form of the configured value (or
of the literal "handcrafted_feature" when the key is absent).  Provided the
translation table itself does not target the two derived keys, the model-name
key is present exactly when the configured model is present, non-blank and not
the token "none" (case-insensitively, after trimming), and the report key is
present exactly when the configured report is present and non-blank — the
token "none" is NOT excluded for the report key (see the counterexample). -/
theorem build_cli_kwargs_derived (cliMap : List (String × String)) (cfg : PyDict)
    (hm : "deep_learning_model" ∉ cliMap.map Prod.snd)
    (hr : "report" ∉ cliMap.map Prod.snd) :
    dget? (build_cli_kwargs cliMap cfg) "extraction_mode"
      = some (PyVal.str (pyStr ((dget? cfg "radiomics_extraction_mode").getD
          (PyVal.str "handcrafted_feature"))))
    ∧ dget? (build_cli_kwargs cliMap cfg) "deep_learning_model"
      = (if modelCond ((dget? cfg "radiomics_deep_learning_model").getD PyVal.none)
         then some (PyVal.str (pyStr ((dget? cfg "radiomics_deep_learning_model").getD
             PyVal.none)))
         else Option.none)
    ∧ dget? (build_cli_kwargs cliMap cfg) "report"
      = (if repCond ((dget? cfg "radiomics_report").getD PyVal.none)
         then some (PyVal.str (pyStr ((dget? cfg "radiomics_report").getD PyVal.none)))
         else Option.none) := by
  simp only [build_cli_kwargs]
  by_cases hmc : modelCond ((dget? cfg "radiomics_deep_learning_model").getD PyVal.none) = true
    <;> by_cases hrc : repCond ((dget? cfg "radiomics_report").getD PyVal.none) = true
  · rw [if_pos hmc, if_pos hrc]
    refine ⟨?_, ?_, ?_⟩
    · rw [dget?_dinsert, if_neg (by decide), dget?_dinsert, if_neg (by decide),
          dget?_dinsert, if_pos rfl]
    · rw [dget?_dinsert, if_neg (by decide), dget?_dinsert, if_pos rfl, if_pos hmc]
    · rw [dget?_dinsert, if_pos rfl, if_pos hrc]
  · rw [if_pos hmc, if_neg hrc]
    refine ⟨?_, ?_, ?_⟩
    · rw [dget?_dinsert, if_neg (by decide), dget?_dinsert, if_pos rfl]
    · rw [dget?_dinsert, if_pos rfl, if_pos hmc]
    · rw [if_neg hrc, dget?_dinsert, if_neg (by decide), dget?_dinsert,
          if_neg (by decide), dget?_cliFold_none cliMap cfg _ hr]
  · rw [if_neg hmc, if_pos hrc]
    refine ⟨?_, ?_, ?_⟩
    · rw [dget?_dinsert, if_neg (by decide), dget?_dinsert, if_pos rfl]
    · rw [if_neg hmc, dget?_dinsert, if_neg (by decide), dget?_dinsert,
          if_neg (by decide), dget?_cliFold_none cliMap cfg _ hm]
    · rw [dget?_dinsert, if_pos rfl, if_pos hrc]
  · rw [if_neg hmc, if_neg hrc]
    refine ⟨?_, ?_, ?_⟩
    · rw [dget?_dinsert, if_pos rfl]
    · rw [if_neg hmc, dget?_dinsert, if_neg (by decide),
          dget?_cliFold_none cliMap cfg _ hm]
    · rw [if_neg hrc, dget?_dinsert, if_neg (by decide),
          dget?_cliFold_none cliMap cfg _ hr]

/-- [C3, witness] The amended theorem at an empty translation table with a
configured report level "all" and no model: the extraction mode defaults, the
model key is absent, the report key carries "all". -/
theorem build_cli_kwargs_derived_witness :
    dget? (build_cli_kwargs [] [("radiomics_report", PyVal.str "all")]) "extraction_mode"
      = some (PyVal.str "handcrafted_feature")
    ∧ dget? (build_cli_kwargs [] [("radiomics_report", PyVal.str "all")]) "deep_learning_model"
      = Option.none
    ∧ dget? (build_cli_kwargs [] [("radiomics_report", PyVal.str "all")]) "report"
      = some (PyVal.str "all") := by
  have h := build_cli_kwargs_derived [] [("radiomics_report", PyVal.str "all")]
    (by simp) (by simp)
  exact ⟨h.1, h.2.1.trans (by rfl), h.2.2.trans (by rfl)⟩

/-- [C3, counterexample] A configured report level equal to the token "none"
is still included in the CLI keyword mapping: the claim's "report-level key
only if ... not the token 'none'" is false as stated (only the model name
excludes "none"). -/
theorem build_cli_kwargs_report_none_included :
    dget? (build_cli_kwargs [] [("radiomics_report", PyVal.str "none")]) "report"
      = some (PyVal.str "none") := rfl

/-! Claims C4 and C5: the degenerate branches of the result normalizer. -/

/-- [C4, amended] For a mapping payload, an absent "features_extracted" key
yields the empty row list, a none value also yields the empty row list (the
code conflates the two via `result.get(...)`/`if fx is None`), and a value of
any otherwise-unrecognized kind is stringified and wrapped as the single row
named "features_extracted". -/
theorem feature_rows_other_kinds :
    (∀ res : PyDict, dget? res "features_extracted" = Option.none →
      feature_rows_from_result (PyVal.dict res) = [])
    ∧ (∀ res : PyDict, dget? res "features_extracted" = some PyVal.none →
      feature_rows_from_result (PyVal.dict res) = [])
    ∧ (∀ (res : PyDict) (fx : PyVal), dget? res "features_extracted" = some fx →
      isOtherKind fx = true →
      feature_rows_from_result (PyVal.dict res) =
        [(PyVal.str "features_extracted", PyVal.str (pyStr fx))]) := by
  refine ⟨?_, ?_, ?_⟩
  · intro res h
    simp only [feature_rows_from_result, h]
  · intro res h
    simp only [feature_rows_from_result, h]
  · intro res fx hget hkind
    cases fx with
    | bool b => simp only [feature_rows_from_result, hget]
    | int n => simp only [feature_rows_from_result, hget]
    | float q => simp only [feature_rows_from_result, hget]
    | none => exact absurd hkind (by simp [isOtherKind])
    | str s => exact absurd hkind (by simp [isOtherKind])
    | list xs => exact absurd hkind (by simp [isOtherKind])
    | dict kvs => exact absurd hkind (by simp [isOtherKind])

/-- [C4, witness] The wrap branch at an integer payload value. -/
theorem feature_rows_other_kinds_witness :
    feature_rows_from_result (PyVal.dict [("features_extracted", PyVal.int 7)])
      = [(PyVal.str "features_extracted", PyVal.str "7")] :=
  (feature_rows_other_kinds.2.2 [("features_extracted", PyVal.int 7)] (PyVal.int 7)
    rfl rfl).trans (by rfl)

/-- [C4, counterexample] A none value under "features_extracted" yields the
empty row list, not the claimed stringified single row. -/
theorem feature_rows_none_payload_empty :
    feature_rows_from_result (PyVal.dict [("features_extracted", PyVal.none)]) = []
    ∧ feature_rows_from_result (PyVal.dict [("features_extracted", PyVal.none)])
      ≠ [(PyVal.str "features_extracted", PyVal.str "None")] := by
  have e : feature_rows_from_result (PyVal.dict [("features_extracted", PyVal.none)]) = [] := rfl
  refine ⟨e, ?_⟩
  rw [e]
  simp

/-- [C5] A payload with no usable shape — not a mapping, or a mapping whose
"features_extracted" entry is absent or none — normalizes to the empty row
list (and the embedded function is total, so nothing is raised); the caller
then falls back to CSV polling. -/
theorem feature_rows_no_usable_shape (result : PyVal) (h : noUsableShape result = true) :
    feature_rows_from_result result = [] := by
  cases result with
  | dict res =>
    simp only [noUsableShape] at h
    rcases hget : dget? res "features_extracted" with _ | fx
    · simp only [feature_rows_from_result, hget]
    · rw [hget] at h
      cases fx with
      | none => simp only [feature_rows_from_result, hget]
      | bool b => exact absurd h (by simp)
      | int n => exact absurd h (by simp)
      | float q => exact absurd h (by simp)
      | str s => exact absurd h (by simp)
      | list xs => exact absurd h (by simp)
      | dict kvs => exact absurd h (by simp)
  | none => rfl
  | bool b => rfl
  | int n => rfl
  | float q => rfl
  | str s => rfl
  | list xs => rfl

/-- [C5, witness] The theorem applied to a non-mapping payload. -/
theorem feature_rows_no_usable_shape_witness :
    feature_rows_from_result (PyVal.int 3) = [] :=
  feature_rows_no_usable_shape (PyVal.int 3) rfl

/-! Claim C7: the bounded retry loop of `_wait_for_readable_file`. -/

theorem waitLoop_ready (outcome : Nat → Attempt) :
    ∀ (fuel start : Nat) (lastErr : Option String),
      (∃ i, i < fuel ∧ outcome (start + i) = Attempt.ready) →
      waitLoop outcome start fuel lastErr = Except.ok true := by
  intro fuel
  induction fuel with
  | zero =>
    rintro start lastErr ⟨i, hi, _⟩
    omega
  | succ fuel ih =>
    rintro start lastErr ⟨i, hi, hready⟩
    rcases houtcome : outcome start with _ | _ | e
    · simp only [waitLoop, houtcome]
    · have hi0 : i ≠ 0 := by
        rintro rfl
        rw [Nat.add_zero, houtcome] at hready
        cases hready
      obtain ⟨j, rfl⟩ := Nat.exists_eq_succ_of_ne_zero hi0
      simp only [waitLoop, houtcome]
      exact ih (start + 1) lastErr
        ⟨j, by omega, by rw [show start + 1 + j = start + (j + 1) by omega]; exact hready⟩
    · have hi0 : i ≠ 0 := by
        rintro rfl
        rw [Nat.add_zero, houtcome] at hready
        cases hready
      obtain ⟨j, rfl⟩ := Nat.exists_eq_succ_of_ne_zero hi0
      simp only [waitLoop, houtcome]
      exact ih (start + 1) (some e)
        ⟨j, by omega, by rw [show start + 1 + j = start + (j + 1) by omega]; exact hready⟩

theorem waitLoop_no_ready (outcome : Nat → Attempt) :
    ∀ (fuel start : Nat) (lastErr : Option String),
      (∀ i, i < fuel → outcome (start + i) ≠ Attempt.ready) →
      waitLoop outcome start fuel lastErr =
        (match lastErrIn outcome start fuel with
         | some e => Except.error e
         | Option.none =>
           match lastErr with
           | some e => Except.error e
           | Option.none => Except.ok false) := by
  intro fuel
  induction fuel with
  | zero => intro start lastErr _; rfl
  | succ fuel ih =>
    intro start lastErr hnoready
    have hshift : ∀ i, i < fuel → outcome (start + 1 + i) ≠ Attempt.ready := by
      intro i hi
      have := hnoready (i + 1) (by omega)
      rwa [show start + (i + 1) = start + 1 + i by omega] at this
    rcases houtcome : outcome start with _ | _ | e
    · exact absurd (by rw [Nat.add_zero]; exact houtcome) (hnoready 0 (by omega))
    · simp only [waitLoop, houtcome]
      rw [ih (start + 1) lastErr hshift]
      simp only [lastErrIn, houtcome]
      cases lastErrIn outcome (start + 1) fuel <;> rfl
    · simp only [waitLoop, houtcome]
      rw [ih (start + 1) (some e) hshift]
      simp only [lastErrIn, houtcome]
      cases lastErrIn outcome (start + 1) fuel <;> rfl

theorem lastErrIn_eq_none (outcome : Nat → Attempt) :
    ∀ (fuel start : Nat), (∀ i, i < fuel → ∀ e, outcome (start + i) ≠ Attempt.err e) →
      lastErrIn outcome start fuel = Option.none := by
  intro fuel
  induction fuel with
  | zero => intro start _; rfl
  | succ fuel ih =>
    intro start hnoerr
    have htail : lastErrIn outcome (start + 1) fuel = Option.none := by
      refine ih (start + 1) (fun i hi e => ?_)
      have := hnoerr (i + 1) (by omega) e
      rwa [show start + (i + 1) = start + 1 + i by omega] at this
    simp only [lastErrIn, htail]
    rcases houtcome : outcome start with _ | _ | e
    · rfl
    · rfl
    · exact absurd (by rw [Nat.add_zero]; exact houtcome) (hnoerr 0 (by omega) e)

theorem lastErrIn_last (outcome : Nat → Attempt) :
    ∀ (fuel start j : Nat) (e : String), j < fuel → outcome (start + j) = Attempt.err e →
      (∀ i, j < i → i < fuel → ∀ e', outcome (start + i) ≠ Attempt.err e') →
      lastErrIn outcome start fuel = some e := by
  intro fuel
  induction fuel with
  | zero => intro start j e hj _ _; omega
  | succ fuel ih =>
    intro start j e hj hje hlast
    cases j with
    | zero =>
      have htail : lastErrIn outcome (start + 1) fuel = Option.none := by
        refine lastErrIn_eq_none outcome fuel (start + 1) (fun i hi e' => ?_)
        have := hlast (i + 1) (by omega) (by omega) e'
        rwa [show start + (i + 1) = start + 1 + i by omega] at this
      rw [Nat.add_zero] at hje
      simp only [lastErrIn, htail, hje]
    | succ j2 =>
      have htail : lastErrIn outcome (start + 1) fuel = some e := by
        refine ih (start + 1) j2 e (by omega) ?_ ?_
        · rwa [show start + 1 + j2 = start + (j2 + 1) by omega]
        · intro i h1 h2 e'
          have := hlast (i + 1) (by omega) (by omega) e'
          rwa [show start + (i + 1) = start + 1 + i by omega] at this
      simp only [lastErrIn, htail]

/-- [C7] Over every outcome sequence, `_wait_for_readable_file` returns the
ready signal as soon as an attempt within the retry budget finds the file
ready; if no attempt does, it raises the last error observed among the
attempts, and it returns the not-ready signal when no attempt raised. -/
theorem wait_for_readable_file_spec (outcome : Nat → Attempt) (retries : Nat) :
    ((∃ i, i < retries ∧ outcome i = Attempt.ready) →
      waitForReadableFile outcome retries = Except.ok true)
    ∧ ((∀ i, i < retries → outcome i ≠ Attempt.ready) →
        (∀ i, i < retries → ∀ e, outcome i ≠ Attempt.err e) →
        waitForReadableFile outcome retries = Except.ok false)
    ∧ (∀ j e, (∀ i, i < retries → outcome i ≠ Attempt.ready) → j < retries →
        outcome j = Attempt.err e →
        (∀ i, j < i → i < retries → ∀ e', outcome i ≠ Attempt.err e') →
        waitForReadableFile outcome retries = Except.error e) := by
  refine ⟨?_, ?_, ?_⟩
  · rintro ⟨i, hi, hready⟩
    exact waitLoop_ready outcome retries 0 Option.none ⟨i, hi, by simpa using hready⟩
  · intro hnoready hnoerr
    unfold waitForReadableFile
    rw [waitLoop_no_ready outcome retries 0 Option.none
          (fun i hi => by simpa using hnoready i hi),
        lastErrIn_eq_none outcome retries 0 (fun i hi e => by simpa using hnoerr i hi e)]
  · intro j e hnoready hj hje hlast
    unfold waitForReadableFile
    rw [waitLoop_no_ready outcome retries 0 Option.none
          (fun i hi => by simpa using hnoready i hi),
        lastErrIn_last outcome retries 0 j e hj (by simpa using hje)
          (fun i h1 h2 e' => by simpa using hlast i h1 h2 e')]

/-- [C7, witness] The three clauses at concrete outcome sequences: an
immediately ready file, a never-ready file with no errors, and a never-ready
file whose first attempt raised. -/
theorem wait_for_readable_file_spec_witness :
    waitForReadableFile (fun _ => Attempt.ready) 3 = Except.ok true
    ∧ waitForReadableFile (fun _ => Attempt.notReady) 2 = Except.ok false
    ∧ waitForReadableFile (fun i => if i = 0 then Attempt.err "E" else Attempt.notReady) 2
      = Except.error "E" := by
  refine ⟨?_, ?_, ?_⟩
  · exact (wait_for_readable_file_spec (fun _ => Attempt.ready) 3).1 ⟨0, by omega, rfl⟩
  · exact (wait_for_readable_file_spec (fun _ => Attempt.notReady) 2).2.1
      (fun i _ => by simp) (fun i _ e => by simp)
  · refine (wait_for_readable_file_spec
      (fun i => if i = 0 then Attempt.err "E" else Attempt.notReady) 2).2.2 0 "E"
      (fun i hi => ?_) (by omega) (by simp) (fun i h1 h2 e' => ?_)
    · have : i = 0 ∨ i = 1 := by omega
      rcases this with rfl | rfl <;> simp
    · have : i = 1 := by omega
      subst this
      simp

/-! Claim C8: the wide-format branch of the CSV fallback reader. -/

/-- [C8, amended] When the header is not the recognized long-format
name/value header, the second record has the same column count as the header,
and the header has at least two columns, the reader returns the header zipped
with the second record (every further record is ignored).  The two-column
requirement is necessary, see the counterexample. -/
theorem load_features_wide (header v : List String) (rest : List (List String))
    (hlong : longHeader header = false) (hlen : v.length = header.length)
    (h2 : 2 ≤ header.length) :
    loadFeaturesRows (header :: v :: rest) = header.zip v
    ∧ (loadFeaturesRows (header :: v :: rest)).length = header.length := by
  have e : loadFeaturesRows (header :: v :: rest) = header.zip v := by
    simp only [loadFeaturesRows]
    rw [if_neg (by simp [hlong]), if_pos ⟨hlen, h2⟩]
  refine ⟨e, ?_⟩
  rw [e, List.length_zip, hlen, Nat.min_self]

/-- [C8, witness] The spec's example: header `f1,f2` with single data row
`1,2` yields the transposed pairs. -/
theorem load_features_wide_witness :
    loadFeaturesRows [["f1", "f2"], ["1", "2"]] = [("f1", "1"), ("f2", "2")] :=
  (load_features_wide ["f1", "f2"] ["1", "2"] [] (by decide) (by decide)
    (by decide)).1.trans (by decide)

/-- [C8, counterexample] With a one-column header the wide branch is not
taken even though the second record has the header's column count: the reader
falls through to the pseudo-row branch, so the claim fails as stated. -/
theorem load_features_wide_needs_two_columns :
    loadFeaturesRows [["x"], ["1"]] = [("1", "")]
    ∧ loadFeaturesRows [["x"], ["1"]] ≠ [("x", "1")] := by decide

/-! Claim C6: the mapping branch of the result normalizer. -/

theorem dget?_eq_some_iff_mem (l : PyDict) (hnd : (dkeys l).Nodup) (k : String) (v : PyVal) :
    dget? l k = some v ↔ (k, v) ∈ l := by
  induction l with
  | nil => simp [dget?]
  | cons p tl ih =>
    rw [dkeys_cons, List.nodup_cons] at hnd
    by_cases hpk : p.1 = k
    · unfold dget?
      rw [List.find?_cons_of_pos _ (by simpa using hpk)]
      simp only [Option.map_some', Option.some.injEq]
      constructor
      · rintro rfl
        exact List.mem_cons.mpr (Or.inl (by rw [← hpk]))
      · intro hmem
        rcases List.mem_cons.mp hmem with heq | htl
        · exact (congrArg Prod.snd heq).symm
        · exact absurd (List.mem_map.mpr ⟨(k, v), htl, rfl⟩) (hpk ▸ hnd.1)
    · unfold dget?
      rw [List.find?_cons_of_neg _ (by simpa using hpk)]
      rw [show Option.map Prod.snd (tl.find? (fun p => p.1 = k)) = dget? tl k from rfl,
          ih hnd.2]
      constructor
      · exact fun h => List.mem_cons.mpr (Or.inr h)
      · intro h
        rcases List.mem_cons.mp h with heq | htl
        · exact absurd (congrArg Prod.fst heq).symm hpk
        · exact htl

theorem dget?_getD_eq_iff (l : PyDict) (hnd : (dkeys l).Nodup) (k : String) (v : PyVal) :
    (k ∈ dkeys l ∧ (dget? l k).getD PyVal.none = v) ↔ (k, v) ∈ l := by
  constructor
  · rintro ⟨hmem, hval⟩
    rcases hget : dget? l k with _ | v0
    · exact absurd ((dget?_eq_none_iff l k).mp hget) (fun h => h hmem)
    · rw [hget] at hval
      simp only [Option.getD_some] at hval
      exact (dget?_eq_some_iff_mem l hnd k v).mp (hval ▸ hget)
  · intro hmem
    have hget := (dget?_eq_some_iff_mem l hnd k v).mpr hmem
    refine ⟨?_, by rw [hget]; rfl⟩
    by_contra hnone
    rw [(dget?_eq_none_iff l k).mpr hnone] at hget
    cases hget

/-- [C6, amended] For a mapping payload with distinct keys, the normalizer
emits (stringified-key, value) pairs in ascending code-point order of the
keys, keeping exactly the pairs whose trimmed, lower-cased key is not on the
metadata deny-list (deny-listed keys such as "roi" are dropped, see the
counterexample). -/
theorem feature_rows_dict_sorted (res kvs : PyDict)
    (hget : dget? res "features_extracted" = some (PyVal.dict kvs))
    (hnd : (dkeys kvs).Nodup) :
    List.Sorted strLe ((feature_rows_from_result (PyVal.dict res)).map (fun r => pyStr r.1))
    ∧ (∀ (k : String) (v : PyVal),
        (PyVal.str k, v) ∈ feature_rows_from_result (PyVal.dict res) ↔
          ((k, v) ∈ kvs ∧ metaDrop.contains (pyLower (pyStrip k)) = false)) := by
  have hrows : feature_rows_from_result (PyVal.dict res) = filterMeta (sortedPairs kvs) := by
    simp only [feature_rows_from_result, hget]
  have hcomm : filterMeta (sortedPairs kvs) =
      ((sortStrings (dkeys kvs)).filter
        (fun k => !metaDrop.contains (pyLower (pyStrip k)))).map
        (fun k => (PyVal.str k, (dget? kvs k).getD PyVal.none)) := by
    unfold filterMeta sortedPairs
    rw [List.filter_map]
    rfl
  constructor
  · rw [hrows, hcomm, List.map_map,
        show ((fun r : PyVal × PyVal => pyStr r.1) ∘
            (fun k : String => (PyVal.str k, (dget? kvs k).getD PyVal.none)))
          = (fun k : String => k) from rfl,
        List.map_id']
    exact List.Pairwise.sublist (List.filter_sublist _)
      (List.sorted_insertionSort strLe (dkeys kvs))
  · intro k v
    rw [hrows, hcomm]
    constructor
    · intro hmem
      rcases List.mem_map.mp hmem with ⟨k2, hk2, heq⟩
      have hkk : k2 = k := by
        have := congrArg Prod.fst heq
        simpa using this
      subst hkk
      rcases List.mem_filter.mp hk2 with ⟨hsorted, hpred⟩
      have hkeys : k2 ∈ dkeys kvs := (List.perm_insertionSort strLe (dkeys kvs)).mem_iff.mp hsorted
      have hval : (dget? kvs k2).getD PyVal.none = v := congrArg Prod.snd heq
      refine ⟨(dget?_getD_eq_iff kvs hnd k2 v).mp ⟨hkeys, hval⟩, ?_⟩
      simpa using hpred
    · rintro ⟨hmem, hdrop⟩
      have hpair := (dget?_getD_eq_iff kvs hnd k v).mpr hmem
      refine List.mem_map.mpr ⟨k, List.mem_filter.mpr ⟨?_, by simpa using hdrop⟩, ?_⟩
      · exact (List.perm_insertionSort strLe (dkeys kvs)).mem_iff.mpr hpair.1
      · rw [hpair.2]

/-- [C6, witness] The spec's example `{"b": 1, "a": 2}` yields
`[("a", 2), ("b", 1)]`, and the emitted names are sorted. -/
theorem feature_rows_dict_sorted_witness :
    feature_rows_from_result (PyVal.dict [("features_extracted",
        PyVal.dict [("b", PyVal.int 1), ("a", PyVal.int 2)])])
      = [(PyVal.str "a", PyVal.int 2), (PyVal.str "b", PyVal.int 1)]
    ∧ List.Sorted strLe ((feature_rows_from_result (PyVal.dict [("features_extracted",
        PyVal.dict [("b", PyVal.int 1), ("a", PyVal.int 2)])])).map (fun r => pyStr r.1)) :=
  ⟨rfl, (feature_rows_dict_sorted [("features_extracted",
      PyVal.dict [("b", PyVal.int 1), ("a", PyVal.int 2)])]
    [("b", PyVal.int 1), ("a", PyVal.int 2)] rfl (by decide)).1⟩

/-- [C6, counterexample] A mapping whose only key is deny-listed: the pair is
dropped by the metadata filter, so "emits its (key, value) pairs" is false as
stated. -/
theorem feature_rows_dict_meta_key_dropped :
    feature_rows_from_result
        (PyVal.dict [("features_extracted", PyVal.dict [("roi", PyVal.int 1)])]) = []
    ∧ feature_rows_from_result
        (PyVal.dict [("features_extracted", PyVal.dict [("roi", PyVal.int 1)])])
      ≠ [(PyVal.str "roi", PyVal.int 1)] := by
  have e : feature_rows_from_result
      (PyVal.dict [("features_extracted", PyVal.dict [("roi", PyVal.int 1)])]) = [] := rfl
  refine ⟨e, ?_⟩
  rw [e]
  simp

/-! Claim C9: idempotence of the coercion.  The key structural fact is that
stripping is idempotent; the coercion is then a fixed point on every
non-list output.  On list outputs idempotence FAILS, because a list fed back
into the coercion is first stringified (`str(v)`) and then re-split on the
commas of its repr. -/

theorem head?_dropWhile_not (p : Char → Bool) (l : List Char) :
    ∀ x, (l.dropWhile p).head? = some x → p x = false := by
  induction l with
  | nil => intro x hx; cases hx
  | cons c cs ih =>
    intro x hx
    by_cases hc : p c = true
    · rw [List.dropWhile_cons, if_pos hc] at hx
      exact ih x hx
    · rw [List.dropWhile_cons, if_neg hc] at hx
      injection hx with hx2
      subst hx2
      exact Bool.not_eq_true _ ▸ hc

theorem dropWhile_eq_self_of_head (p : Char → Bool) (l : List Char)
    (h : ∀ x, l.head? = some x → p x = false) : l.dropWhile p = l := by
  cases l with
  | nil => rfl
  | cons c cs => rw [List.dropWhile_cons, if_neg (by simp [h c rfl])]

theorem getLast?_dropWhile (p : Char → Bool) (l : List Char)
    (hne : l.dropWhile p ≠ []) : (l.dropWhile p).getLast? = l.getLast? := by
  induction l with
  | nil => exact absurd rfl hne
  | cons c cs ih =>
    by_cases hc : p c = true
    · rw [List.dropWhile_cons, if_pos hc] at hne ⊢
      cases cs with
      | nil => exact absurd rfl hne
      | cons d ds =>
        rw [ih hne, List.getLast?_cons_cons]
    · rw [List.dropWhile_cons, if_neg hc]

theorem pyStrip_idem (s : String) : pyStrip (pyStrip s) = pyStrip s := by
  unfold pyStrip
  by_cases hm : ((s.data.dropWhile Char.isWhitespace).reverse.dropWhile Char.isWhitespace) = []
  · rw [hm]
    rfl
  · have step1 : (((s.data.dropWhile Char.isWhitespace).reverse.dropWhile
        Char.isWhitespace).reverse).dropWhile Char.isWhitespace =
        ((s.data.dropWhile Char.isWhitespace).reverse.dropWhile Char.isWhitespace).reverse := by
      refine dropWhile_eq_self_of_head _ _ (fun x hx => ?_)
      rw [List.head?_reverse, getLast?_dropWhile _ _ hm, List.getLast?_reverse] at hx
      exact head?_dropWhile_not _ _ x hx
    have step3 : ((s.data.dropWhile Char.isWhitespace).reverse.dropWhile
        Char.isWhitespace).dropWhile Char.isWhitespace =
        (s.data.dropWhile Char.isWhitespace).reverse.dropWhile Char.isWhitespace := by
      refine dropWhile_eq_self_of_head _ _ (fun x hx => ?_)
      exact head?_dropWhile_not _ _ x hx
    rw [show (String.mk (((s.data.dropWhile Char.isWhitespace).reverse.dropWhile
          Char.isWhitespace).reverse)).data =
        ((s.data.dropWhile Char.isWhitespace).reverse.dropWhile Char.isWhitespace).reverse
        from rfl,
        step1, List.reverse_reverse, step3]

theorem scalarParse_shape (t : String) (r : PyVal) (h : scalarParse t = some r) :
    (∃ n, r = PyVal.int n) ∨ (∃ q, r = PyVal.float q) := by
  unfold scalarParse at h
  by_cases hc : (pyContains t '.' || pyContains (pyLower t) 'e') = true
  · rw [if_pos hc] at h
    rcases hf : pyFloat? t with _ | q
    · rw [hf] at h; cases h
    · rw [hf] at h
      injection h with h2
      exact Or.inr ⟨q, h2.symm⟩
  · rw [if_neg hc] at h
    rcases hf : pyInt? t with _ | n
    · rw [hf] at h; cases h
    · rw [hf] at h
      injection h with h2
      exact Or.inl ⟨n, h2.symm⟩

theorem normalize_val_idem_aux (v : PyVal) (h : ∀ xs, normalize v ≠ PyVal.list xs)
    (heq : normalize v =
      (if pyStrip (pyStr v) = "" then PyVal.str ""
       else if pyLower (pyStrip (pyStr v)) = "none" then PyVal.none
       else if pyLower (pyStrip (pyStr v)) = "auto" then PyVal.str "auto"
       else if pyContains (pyStrip (pyStr v)) ',' then
         PyVal.list ((pySplitComma (pyStrip (pyStr v))).map coercePart)
       else
         match scalarParse (pyStrip (pyStr v)) with
         | some r => r
         | Option.none => PyVal.str (pyStrip (pyStr v)))) :
    normalize (normalize v) = normalize v := by
  have ht : pyStrip (pyStrip (pyStr v)) = pyStrip (pyStr v) := pyStrip_idem (pyStr v)
  by_cases h1 : pyStrip (pyStr v) = ""
  · rw [heq, if_pos h1]
    rfl
  · by_cases h2 : pyLower (pyStrip (pyStr v)) = "none"
    · rw [heq, if_neg h1, if_pos h2]
      rfl
    · by_cases h3 : pyLower (pyStrip (pyStr v)) = "auto"
      · rw [heq, if_neg h1, if_neg h2, if_pos h3]
        rfl
      · by_cases h4 : pyContains (pyStrip (pyStr v)) ',' = true
        · exact absurd (by rw [heq, if_neg h1, if_neg h2, if_neg h3, if_pos h4]) (h _)
        · rcases hsp : scalarParse (pyStrip (pyStr v)) with _ | r
          · rw [heq, if_neg h1, if_neg h2, if_neg h3, if_neg h4, hsp]
            rw [normalize_str_eq (pyStrip (pyStr v)), ht, if_neg h1, if_neg h2, if_neg h3,
                if_neg h4, hsp]
          · rw [heq, if_neg h1, if_neg h2, if_neg h3, if_neg h4, hsp]
            rcases scalarParse_shape _ _ hsp with ⟨n, rfl⟩ | ⟨q, rfl⟩ <;> rfl

/-- [C9, amended] The coercion is idempotent on every value whose coercion
result is not a list: re-coercing such a result returns it unchanged.  On a
value coerced to a list (e.g. a comma-separated string) idempotence fails,
because the list is first stringified and re-split on the commas of its repr
(see the counterexample); the spec's scalar examples hold (see the witness). -/
theorem normalize_idem_non_list (v : PyVal) (h : ∀ xs, normalize v ≠ PyVal.list xs) :
    normalize (normalize v) = normalize v := by
  cases v with
  | none => rfl
  | bool b => cases b <;> rfl
  | int n => rfl
  | float q => rfl
  | str s => exact normalize_val_idem_aux (PyVal.str s) h rfl
  | list xs => exact normalize_val_idem_aux (PyVal.list xs) h rfl
  | dict kvs => exact normalize_val_idem_aux (PyVal.dict kvs) h rfl

/-- [C9, witness] The spec's examples — coercing the integer 2, the string
"2" and the string "2,3,none" — and the idempotence theorem applied at "2". -/
theorem normalize_idem_non_list_witness :
    normalize (PyVal.int 2) = PyVal.int 2
    ∧ normalize (PyVal.str "2") = PyVal.int 2
    ∧ normalize (PyVal.str "2,3,none") = PyVal.list [PyVal.int 2, PyVal.int 3, PyVal.none]
    ∧ normalize (normalize (PyVal.str "2")) = normalize (PyVal.str "2") := by
  refine ⟨rfl, rfl, rfl, ?_⟩
  refine normalize_idem_non_list (PyVal.str "2") (fun xs hx => ?_)
  rw [show normalize (PyVal.str "2") = PyVal.int 2 from rfl] at hx
  cases hx

/-- [C9, counterexample] Idempotence fails on list results: "1,2" coerces to
the list [1, 2], but re-coercing that list stringifies it to "[1, 2]" and
splits on its comma, yielding the strings "[1" and "2]". -/
theorem normalize_not_idempotent_on_lists :
    normalize (PyVal.str "1,2") = PyVal.list [PyVal.int 1, PyVal.int 2]
    ∧ normalize (normalize (PyVal.str "1,2"))
      = PyVal.list [PyVal.str "[1", PyVal.str "2]"]
    ∧ normalize (normalize (PyVal.str "1,2")) ≠ normalize (PyVal.str "1,2") := by
  have e1 : normalize (PyVal.str "1,2") = PyVal.list [PyVal.int 1, PyVal.int 2] := rfl
  have e2 : normalize (PyVal.list [PyVal.int 1, PyVal.int 2])
      = PyVal.list [PyVal.str "[1", PyVal.str "2]"] := rfl
  refine ⟨e1, by rw [e1]; exact e2, ?_⟩
  rw [e1, e2]
  simp

/-! Claim C10: every emitted row is a (name, value) pair with a string name.
In the embedding a row is a pair by type; the substantive fact is that the
name component of every row of `feature_rows_from_result` is a string value,
because the Python code builds every name position with `str(...)`. -/

theorem name_str_of_mem_filterMeta_sortedPairs (kvs : PyDict) (r : PyVal × PyVal)
    (hr : r ∈ filterMeta (sortedPairs kvs)) : ∃ s, r.1 = PyVal.str s := by
  have hr2 : r ∈ sortedPairs kvs := List.mem_of_mem_filter hr
  rcases List.mem_map.mp hr2 with ⟨k, _, heq⟩
  exact ⟨k, by rw [← heq]⟩

theorem name_str_of_mem_itemPairs (item : PyVal) (r : PyVal × PyVal)
    (hr : r ∈ itemPairs item) : ∃ s, r.1 = PyVal.str s := by
  cases item with
  | list ys =>
    cases ys with
    | nil => cases hr
    | cons a tl =>
      cases tl with
      | nil => cases hr
      | cons b tl2 => exact ⟨pyStr a, by rw [List.mem_singleton.mp hr]⟩
  | dict kvs =>
    rcases hf : dget? kvs "feature" with _ | f <;> rcases hv : dget? kvs "value" with _ | v2 <;>
      simp only [itemPairs, hf, hv] at hr
    · rcases List.mem_map.mp hr with ⟨p, _, heq⟩
      exact ⟨p.1, by rw [← heq]⟩
    · rcases List.mem_map.mp hr with ⟨p, _, heq⟩
      exact ⟨p.1, by rw [← heq]⟩
    · rcases List.mem_map.mp hr with ⟨p, _, heq⟩
      exact ⟨p.1, by rw [← heq]⟩
    · exact ⟨pyStr f, by rw [List.mem_singleton.mp hr]⟩
  | none => cases hr
  | bool b => cases hr
  | int n => cases hr
  | float q => cases hr
  | str s => cases hr

theorem name_str_of_mem_listRows (xs : List PyVal) (r : PyVal × PyVal)
    (hr : r ∈ listRows xs) : ∃ s, r.1 = PyVal.str s := by
  rcases htr : transposed? xs with _ | pairs
  · simp only [listRows, htr] at hr
    have hr2 : r ∈ (xs.map itemPairs).flatten := List.mem_of_mem_filter hr
    rcases List.mem_flatten.mp hr2 with ⟨l, hl, hrl⟩
    rcases List.mem_map.mp hl with ⟨item, _, rfl⟩
    exact name_str_of_mem_itemPairs item r hrl
  · simp only [listRows, htr] at hr
    have hr2 : r ∈ pairs := List.mem_of_mem_filter hr
    have hshape : ∃ ns vs : List PyVal,
        pairs = (ns.zip vs).map (fun p => (PyVal.str (pyStr p.1), p.2)) := by
      unfold transposed? at htr
      split at htr
      · split at htr
        · injection htr with h2
          exact ⟨_, _, h2.symm⟩
        · cases htr
      · cases htr
    rcases hshape with ⟨ns, vs, rfl⟩
    rcases List.mem_map.mp hr2 with ⟨p, _, heq⟩
    exact ⟨pyStr p.1, by rw [← heq]⟩

theorem name_str_of_mem_strRows (s : String) (r : PyVal × PyVal)
    (hr : r ∈ strRows s) : ∃ s2, r.1 = PyVal.str s2 := by
  rcases hj : jsonLoads? (pyStrip s) with _ | val
  · simp only [strRows, hj] at hr
    exact ⟨"features_extracted", by rw [List.mem_singleton.mp hr]⟩
  · cases val <;> simp only [strRows, hj] at hr
    case dict kvs => exact name_str_of_mem_filterMeta_sortedPairs kvs r hr
    all_goals exact ⟨"features_extracted", by rw [List.mem_singleton.mp hr]⟩

/-- [C10] Every row produced by the result normalizer is a pair whose first
component is a string value (every name position is built with `str(...)`),
and every row of the CSV fallback reader is a pair of two (string) fields. -/
theorem rows_are_string_named_pairs :
    (∀ (result : PyVal) (r : PyVal × PyVal), r ∈ feature_rows_from_result result →
      ∃ s, r.1 = PyVal.str s)
    ∧ (∀ (records : List (List String)) (r : String × String),
        r ∈ loadFeaturesRows records → ∃ n v2, r = (n, v2)) := by
  constructor
  · intro result r hr
    cases result with
    | dict res =>
      rcases hget : dget? res "features_extracted" with _ | fx
      · simp only [feature_rows_from_result, hget] at hr
        cases hr
      · cases fx with
        | none =>
          simp only [feature_rows_from_result, hget] at hr
          cases hr
        | dict kvs =>
          simp only [feature_rows_from_result, hget] at hr
          exact name_str_of_mem_filterMeta_sortedPairs kvs r hr
        | list xs =>
          simp only [feature_rows_from_result, hget] at hr
          exact name_str_of_mem_listRows xs r hr
        | str s =>
          simp only [feature_rows_from_result, hget] at hr
          exact name_str_of_mem_strRows s r hr
        | bool b =>
          simp only [feature_rows_from_result, hget] at hr
          exact ⟨"features_extracted", by rw [List.mem_singleton.mp hr]⟩
        | int n =>
          simp only [feature_rows_from_result, hget] at hr
          exact ⟨"features_extracted", by rw [List.mem_singleton.mp hr]⟩
        | float q =>
          simp only [feature_rows_from_result, hget] at hr
          exact ⟨"features_extracted", by rw [List.mem_singleton.mp hr]⟩
    | none => cases hr
    | bool b => cases hr
    | int n => cases hr
    | float q => cases hr
    | str s => cases hr
    | list xs => cases hr
  · intro records r _
    exact ⟨r.1, r.2, rfl⟩

/-- [C10, witness] The invariant at the wrap row of an integer payload and at
a row of the wide-format CSV example. -/
theorem rows_are_string_named_pairs_witness :
    (∃ s, ((PyVal.str "features_extracted", PyVal.str "7") : PyVal × PyVal).1 = PyVal.str s)
    ∧ (∃ n v2, (("f1", "1") : String × String) = (n, v2)) := by
  constructor
  · refine rows_are_string_named_pairs.1
      (PyVal.dict [("features_extracted", PyVal.int 7)]) _ ?_
    rw [show feature_rows_from_result (PyVal.dict [("features_extracted", PyVal.int 7)])
        = [(PyVal.str "features_extracted", PyVal.str "7")] from rfl]
    exact List.mem_singleton.mpr rfl
  · exact rows_are_string_named_pairs.2 [["f1", "f2"], ["1", "2"]] ("f1", "1") (by decide)

end PySera
